import Mathlib

/-!
Verification of `repo_concatenate.py`, a single-file utility that walks a
repository tree, filters files against `.gitignore`-style rules and a few
fixed name checks, computes aggregate statistics, renders an ASCII tree of
the folder structure, and concatenates all selected file contents into one
report.

The filesystem is embedded as a mutually inductive rose tree (`FSNode` /
`FSForest`): a file node carries its name, its size in bytes and its content
as a list of lines; a directory node carries its name and its children in
`os.scandir` listing order.  Reading a file is modelled as projecting the
`lines` field of the corresponding entry, so every file is readable.  A
compiled gitignore matcher is modelled as an abstract boolean predicate on
path strings (`Matcher`), matching the type of the callable returned by
`gitignore_parser.parse_gitignore`.

The environment-derived constants `REPO_NAME` (basename of the resolved
repository directory) and `SCRIPT_NAME` (basename of the running script) are
collected in a `Config` value; `REPO_DIR` is the literal `'.'` as in the
source, so every path produced by the walk starts with `./`.
-/

namespace RepoConcat

/-- Environment-derived constants of the script: `REPO_NAME` is the basename
of the absolute path of the repository directory, `SCRIPT_NAME` the basename
of the script file itself. -/
structure Config where
  repoName : String
  scriptName : String
deriving DecidableEq

/-- Constant `GITIGNORE_FILENAME = '.gitignore'`. -/
def GITIGNORE_FILENAME : String := ".gitignore"

/-- Constant `OUTPUT_FILE_SUFFIX = '.txt'`. -/
def OUTPUT_FILE_SUFFIX : String := ".txt"

/-- Derived constant `OUTPUT_FILE = f'{REPO_NAME}{OUTPUT_FILE_SUFFIX}'`. -/
def Config.outputFile (c : Config) : String := c.repoName ++ OUTPUT_FILE_SUFFIX

/-- A compiled ignore matcher: the callable returned by
`gitignore_parser.parse_gitignore`, abstracted as a predicate on paths. -/
abbrev Matcher := String → Bool

/-- Model of `os.path.join(a, b)` for a relative component `b`. -/
def pjoin (a b : String) : String := a ++ "/" ++ b

/-- Model of `os.path.basename`: the part of the path after the last slash. -/
def basename (p : String) : String :=
  String.mk (p.toList.foldl (fun acc c => if c = '/' then [] else acc ++ [c]) [])

/-- Model of `os.path.relpath(p, '.')` for the paths produced by the walk,
which all start with `./`. -/
def relpath (p : String) : String :=
  match p.toList with
  | '.' :: '/' :: rest => String.mk rest
  | _ => p

/-- Byte-wise lexicographic comparison of character lists, mirroring Python
string comparison by Unicode code point. -/
def lexLe : List Char → List Char → Bool
  | [], _ => true
  | _ :: _, [] => false
  | a :: as, b :: bs =>
    if a.toNat < b.toNat then true
    else if b.toNat < a.toNat then false
    else lexLe as bs

/-- String ordering used by `sorted(..., key=lambda e: e.name)`. -/
def strLe (a b : String) : Bool := lexLe a.toList b.toList

/-- Model of `handle_error(error_message, exit_program)`: returns the lines
printed to stdout and whether the program exits.  With `exit_program=False`
it prints one diagnostic line and control returns to the caller. -/
def handle_error (error_message : String) (exit_program : Bool) :
    List String × Bool :=
  (("Error: " ++ error_message) ::
      (if exit_program then ["Exiting program due to error."] else []),
    exit_program)

/-- Outcome of the attempt to read and compile the `.gitignore` file:
the file is absent, or present and parsed to a matcher, or its read/parse
raises an exception with a message. -/
inductive GitignoreSrc where
  | absent
  | readable (m : Matcher)
  | unreadable (msg : String)

/-- Result of `parse_gitignore`: the optional matcher together with the
diagnostics printed and whether the program exited. -/
structure ParseResult where
  matcher : Option Matcher
  printed : List String
  exited : Bool

/-- Model of `parse_gitignore(file_path)`: returns the compiled matcher if
the file exists and parses, `None` if the file does not exist, and on an
exception calls `handle_error` (printing a diagnostic, not exiting) and
returns `None`. -/
def parse_gitignore : GitignoreSrc → ParseResult
  | .absent => ⟨none, [], false⟩
  | .readable m => ⟨some m, [], false⟩
  | .unreadable msg =>
      let r := handle_error ("Failed to parse .gitignore file: " ++ msg) false
      ⟨none, r.1, r.2⟩

/-- Model of `should_include_file(file_path, gitignore)`: the file is kept
when its path differs from `OUTPUT_FILE`, its basename differs from
`SCRIPT_NAME` and from `GITIGNORE_FILENAME`, and the matcher (when present)
does not match the path. -/
def should_include_file (cfg : Config) (file_path : String)
    (gitignore : Option Matcher) : Bool :=
  file_path != cfg.outputFile &&
  basename file_path != cfg.scriptName &&
  basename file_path != GITIGNORE_FILENAME &&
  (match gitignore with
   | none => true
   | some m => !(m file_path))

/-- The directory pruning test applied to `dirs` during the walk: `.git` is
removed unconditionally, and when a matcher is present any directory whose
joined path matches is removed before being descended into. -/
def dirSurvives (gitignore : Option Matcher) (root dirName : String) : Bool :=
  dirName != ".git" &&
  (match gitignore with
   | none => true
   | some m => !(m (pjoin root dirName)))

mutual
/-- A filesystem node: a file with name, byte size and content lines, or a
directory with name and children in `os.scandir` listing order. -/
inductive FSNode where
  | file (name : String) (size : Nat) (lines : List String)
  | dir  (name : String) (children : FSForest)
/-- A listing of sibling filesystem nodes. -/
inductive FSForest where
  | nil
  | cons (head : FSNode) (tail : FSForest)
end

/-- Name of a node, as reported by `os.scandir`. -/
def nodeName : FSNode → String
  | .file n _ _ => n
  | .dir n _ => n

/-- Whether a node is a directory (`entry.is_dir()`). -/
def isDir : FSNode → Bool
  | .file _ _ _ => false
  | .dir _ _ => true

/-- Children of a node; a file has none. -/
def childrenOf : FSNode → FSForest
  | .file _ _ _ => .nil
  | .dir _ cs => cs

/-- Nesting depth of a forest: greatest number of directory levels. -/
def depthF : FSForest → Nat
  | .nil => 0
  | .cons (.file _ _ _) rest => depthF rest
  | .cons (.dir _ cs) rest => max (depthF cs + 1) (depthF rest)

/-- Membership of a node in a forest (one level, not recursive). -/
def memF (e : FSNode) : FSForest → Prop
  | .nil => False
  | .cons m rest => e = m ∨ memF e rest

/-- Structural induction principle for forests that also recurses into the
children of every directory node. -/
def forestInd (P : FSForest → Prop)
    (h0 : P .nil)
    (hf : ∀ n sz ls rest, P rest → P (.cons (.file n sz ls) rest))
    (hd : ∀ nm cs rest, P cs → P rest → P (.cons (.dir nm cs) rest)) :
    ∀ ns, P ns
  | .nil => h0
  | .cons (.file n sz ls) rest => hf n sz ls rest (forestInd P h0 hf hd rest)
  | .cons (.dir nm cs) rest =>
      hd nm cs rest (forestInd P h0 hf hd cs) (forestInd P h0 hf hd rest)

/-- A file discovered by the walk: its joined path together with the size
and lines of the file it denotes (reading the file projects these). -/
structure FileEntry where
  path : String
  size : Nat
  lines : List String
deriving DecidableEq

/-- The `for file in files` loop body of `get_relevant_files` applied to the
files of one directory listing: each file of the listing whose joined path
passes `should_include_file` becomes an entry, in listing order. -/
def filesOf (cfg : Config) (gitignore : Option Matcher) (root : String) :
    FSForest → List FileEntry
  | .nil => []
  | .cons (.file n sz ls) rest =>
      (if should_include_file cfg (pjoin root n) gitignore
       then [⟨pjoin root n, sz, ls⟩] else []) ++ filesOf cfg gitignore root rest
  | .cons (.dir _ _) rest => filesOf cfg gitignore root rest

/-- The recursive part of the `os.walk` traversal in `get_relevant_files`:
`.git` and matcher-matched directories are pruned before descending; each
surviving directory contributes its own files and then its subtree, in
listing order. -/
def statsWalkDirs (cfg : Config) (gitignore : Option Matcher) (root : String) :
    FSForest → List FileEntry
  | .nil => []
  | .cons (.file _ _ _) rest => statsWalkDirs cfg gitignore root rest
  | .cons (.dir nm cs) rest =>
      (if dirSurvives gitignore root nm then
        filesOf cfg gitignore (pjoin root nm) cs ++
          statsWalkDirs cfg gitignore (pjoin root nm) cs
       else []) ++ statsWalkDirs cfg gitignore root rest

/-- Model of `get_relevant_files(repo_dir, gitignore)` with
`repo_dir = REPO_DIR = '.'`: the `os.walk` visits the root listing first and
then each surviving subtree. -/
def get_relevant_files (cfg : Config) (gitignore : Option Matcher)
    (t : FSForest) : List FileEntry :=
  filesOf cfg gitignore "." t ++ statsWalkDirs cfg gitignore "." t

/-- The file loop of the file-index pass in `main`: identical walk and
filter, but each selected file is recorded by
`os.path.relpath(file_path, REPO_DIR)`. -/
def indexFilesOf (cfg : Config) (gitignore : Option Matcher) (root : String) :
    FSForest → List String
  | .nil => []
  | .cons (.file n _ _) rest =>
      (if should_include_file cfg (pjoin root n) gitignore
       then [relpath (pjoin root n)] else []) ++
        indexFilesOf cfg gitignore root rest
  | .cons (.dir _ _) rest => indexFilesOf cfg gitignore root rest

/-- The recursive part of the file-index `os.walk` in `main`. -/
def indexWalkDirs (cfg : Config) (gitignore : Option Matcher) (root : String) :
    FSForest → List String
  | .nil => []
  | .cons (.file _ _ _) rest => indexWalkDirs cfg gitignore root rest
  | .cons (.dir nm cs) rest =>
      (if dirSurvives gitignore root nm then
        indexFilesOf cfg gitignore (pjoin root nm) cs ++
          indexWalkDirs cfg gitignore (pjoin root nm) cs
       else []) ++ indexWalkDirs cfg gitignore root rest

/-- Relative paths listed by the file-index pass of `main`, in walk order. -/
def fileIndexPaths (cfg : Config) (gitignore : Option Matcher)
    (t : FSForest) : List String :=
  indexFilesOf cfg gitignore "." t ++ indexWalkDirs cfg gitignore "." t

/-- The numbered lines written to the file index: `file_number` starts at 1
and increases by one per selected file. -/
def file_index_lines (cfg : Config) (gitignore : Option Matcher)
    (t : FSForest) : List String :=
  (fileIndexPaths cfg gitignore t).enum.map
    (fun p => toString (p.1 + 1) ++ ". " ++ p.2)

/-- The file loop of the content pass in `main`: identical walk and filter;
each selected file is opened and its relative path and full content are
written as a delimited section. -/
def contentFilesOf (cfg : Config) (gitignore : Option Matcher)
    (root : String) : FSForest → List (String × List String)
  | .nil => []
  | .cons (.file n _ ls) rest =>
      (if should_include_file cfg (pjoin root n) gitignore
       then [(relpath (pjoin root n), ls)] else []) ++
        contentFilesOf cfg gitignore root rest
  | .cons (.dir _ _) rest => contentFilesOf cfg gitignore root rest

/-- The recursive part of the content `os.walk` in `main`. -/
def contentWalkDirs (cfg : Config) (gitignore : Option Matcher)
    (root : String) : FSForest → List (String × List String)
  | .nil => []
  | .cons (.file _ _ _) rest => contentWalkDirs cfg gitignore root rest
  | .cons (.dir nm cs) rest =>
      (if dirSurvives gitignore root nm then
        contentFilesOf cfg gitignore (pjoin root nm) cs ++
          contentWalkDirs cfg gitignore (pjoin root nm) cs
       else []) ++ contentWalkDirs cfg gitignore root rest

/-- The delimited content sections written by `main`, in walk order: the
relative path of each selected file paired with its full content. -/
def contentSections (cfg : Config) (gitignore : Option Matcher)
    (t : FSForest) : List (String × List String) :=
  contentFilesOf cfg gitignore "." t ++ contentWalkDirs cfg gitignore "." t

/-- The `'=' * 80 + '\n'` separator of the content sections. -/
def separator : String := String.mk (List.replicate 80 '=') ++ "\n"

/-- Zero-padded four-digit rendering of `file_number` (`%04d`). -/
def pad4 (n : Nat) : String :=
  let s := toString n
  String.mk (List.replicate (4 - s.length) '0') ++ s

/-- The text written for one content section: the header writes, the full
`infile.read()` content, and the footer writes, exactly as in `main`. -/
def renderSection (file_number : Nat) (rel_path : String)
    (lines : List String) : String :=
  "\n" ++ separator ++ ("FILE_" ++ pad4 file_number ++ ": " ++ rel_path ++ "\n")
    ++ separator ++ "\n"
  ++ String.intercalate "\n" lines
  ++ "\n" ++ separator ++
    ("END OF FILE_" ++ pad4 file_number ++ ": " ++ rel_path ++ "\n")
    ++ separator ++ "\n"

/-- Model of `os.path.splitext(p)[1]`: the extension of the basename,
starting at its last dot, provided some earlier character of the basename is
not a dot (so purely dotted names and leading-dot names have no extension). -/
def extOf (p : String) : String :=
  let rest := (basename p).toList.dropWhile (fun c => c = '.')
  let tail := rest.foldl
    (fun acc c =>
      if c = '.' then some []
      else match acc with
        | none => none
        | some l => some (l ++ [c]))
    (none : Option (List Char))
  match tail with
  | none => ""
  | some l => "." ++ String.mk l

/-- Model of `count_total_lines(relevant_files)`: opens each file and adds
its number of lines. -/
def count_total_lines (relevant_files : List FileEntry) : Nat :=
  relevant_files.foldl (fun total f => total + f.lines.length) 0

/-- Adding `k` to the entry of key `e` of an insertion-ordered association
list, appending a fresh entry when the key is new — the behaviour of
`defaultdict(int)` under `lines_per_type[ext] += k`. -/
def bump (e : String) (k : Nat) : List (String × Nat) → List (String × Nat)
  | [] => [(e, k)]
  | (e₀, v) :: rest => if e₀ = e then (e₀, v + k) :: rest else (e₀, v) :: bump e k rest

/-- Model of `count_lines_per_file_type(relevant_files)`: a defaultdict from
extension to accumulated line count, in key-insertion order. -/
def count_lines_per_file_type (relevant_files : List FileEntry) :
    List (String × Nat) :=
  relevant_files.foldl (fun m f => bump (extOf f.path) f.lines.length m) []

/-- Model of `count_files_per_type(relevant_files)`. -/
def count_files_per_type (relevant_files : List FileEntry) :
    List (String × Nat) :=
  relevant_files.foldl (fun m f => bump (extOf f.path) 1 m) []

/-- Model of `calculate_average_file_size(relevant_files)`: the sum of the
sizes divided by the number of files, or `0` for an empty list (the
`if relevant_files else 0` guard, so no division by zero is attempted). -/
def calculate_average_file_size (relevant_files : List FileEntry) : ℚ :=
  if relevant_files.isEmpty then 0
  else ((relevant_files.foldl (fun a f => a + f.size) 0 : Nat) : ℚ) /
    (relevant_files.length : ℚ)

/-- The record kept by `find_largest_file`. -/
structure LargestInfo where
  name : String
  size : Nat
  lines : Nat
deriving DecidableEq

/-- Model of `find_largest_file(relevant_files)`: starting from the sentinel
`{'name': '', 'size': 0, 'lines': 0}`, a file replaces the candidate only
when its size is strictly greater. -/
def find_largest_file (relevant_files : List FileEntry) : LargestInfo :=
  relevant_files.foldl
    (fun largest f =>
      if f.size > largest.size
      then ⟨basename f.path, f.size, f.lines.length⟩
      else largest)
    ⟨"", 0, 0⟩

/-- The dictionary produced by `calculate_statistics`. -/
structure Stats where
  total_files : Nat
  total_lines : Nat
  lines_per_file_type : List (String × Nat)
  files_per_type : List (String × Nat)
  average_file_size : ℚ
  largest_file : LargestInfo

/-- Model of `calculate_statistics(repo_dir, gitignore)` with
`repo_dir = '.'`. -/
def calculate_statistics (cfg : Config) (gitignore : Option Matcher)
    (t : FSForest) : Stats :=
  let relevant_files := get_relevant_files cfg gitignore t
  { total_files := relevant_files.length
    total_lines := count_total_lines relevant_files
    lines_per_file_type := count_lines_per_file_type relevant_files
    files_per_type := count_files_per_type relevant_files
    average_file_size := calculate_average_file_size relevant_files
    largest_file := find_largest_file relevant_files }

/-- Insertion into a name-sorted forest, stable: the new node goes before
the first node whose name is not smaller. -/
def insertByName (n : FSNode) : FSForest → FSForest
  | .nil => .cons n .nil
  | .cons m ms =>
      if strLe (nodeName n) (nodeName m)
      then .cons n (.cons m ms)
      else .cons m (insertByName n ms)

/-- Model of `sorted(os.scandir(path), key=lambda e: e.name)`: stable sort
of a directory listing by name. -/
def sortForest : FSForest → FSForest
  | .nil => .nil
  | .cons n ms => insertByName n (sortForest ms)

/-- The name-based filter of `get_folder_structure`: entries named `.git`,
`OUTPUT_FILE`, `SCRIPT_NAME` or `GITIGNORE_FILENAME` are dropped. -/
def nameFilter (cfg : Config) : FSForest → FSForest
  | .nil => .nil
  | .cons e rest =>
      if nodeName e != ".git" && nodeName e != cfg.outputFile &&
          nodeName e != cfg.scriptName && nodeName e != GITIGNORE_FILENAME
      then .cons e (nameFilter cfg rest)
      else nameFilter cfg rest

/-- The matcher filter of `get_folder_structure`: applied only when a
matcher is present, dropping entries whose `entry.path` matches. -/
def matcherFilter (gitignore : Option Matcher) (path : String) :
    FSForest → FSForest
  | .nil => .nil
  | .cons e rest =>
      match gitignore with
      | none => .cons e (matcherFilter none path rest)
      | some m =>
          if !(m (pjoin path (nodeName e)))
          then .cons e (matcherFilter (some m) path rest)
          else matcherFilter (some m) path rest

/-- The entry filter of `add_to_structure`: the name filter followed by the
matcher filter, as in the source. -/
def treeFilter (cfg : Config) (gitignore : Option Matcher) (path : String)
    (ns : FSForest) : FSForest :=
  matcherFilter gitignore path (nameFilter cfg ns)

/-- The `for i, entry in enumerate(entries)` loop of `add_to_structure`,
abstracted over the recursive call used for subdirectories: a last entry
gets the `└── ` connector and extends the running indent with four spaces,
a non-last entry gets `├── ` and extends it with `│   `; a directory yields
its line and then its rendered subtree. -/
def renderEntriesWith (rec : String → String → FSForest → List String)
    (path pre : String) : FSForest → List String
  | .nil => []
  | .cons e .nil =>
      if isDir e then
        (pre ++ "└── " ++ nodeName e ++ "/") ::
          rec (pjoin path (nodeName e)) (pre ++ "    ") (childrenOf e)
      else [pre ++ "└── " ++ nodeName e]
  | .cons e (.cons m ms) =>
      (if isDir e then
        (pre ++ "├── " ++ nodeName e ++ "/") ::
          rec (pjoin path (nodeName e)) (pre ++ "│   ") (childrenOf e)
       else [pre ++ "├── " ++ nodeName e]) ++
        renderEntriesWith rec path pre (.cons m ms)

/-- Model of the recursive generator `add_to_structure(path, prefix)`,
defined with a fuel argument that bounds the directory depth; with fuel
larger than the depth of the forest it renders the whole subtree. -/
def add_to_structure (cfg : Config) (gitignore : Option Matcher) :
    Nat → String → String → FSForest → List String
  | 0, _, _, _ => []
  | fuel+1, path, pre, cs =>
      renderEntriesWith (add_to_structure cfg gitignore fuel) path pre
        (treeFilter cfg gitignore path (sortForest cs))

/-- Model of `get_folder_structure(start_path, gitignore)` with
`start_path = '.'`: the `REPO_NAME/` headline followed by the rendered
tree. -/
def get_folder_structure (cfg : Config) (gitignore : Option Matcher)
    (t : FSForest) : List String :=
  (cfg.repoName ++ "/") :: add_to_structure cfg gitignore (depthF t + 1) "." "" t

/-- Removal of every pruned directory from a forest: a directory is pruned
when the walk would not descend into it, that is when it is named `.git` or
the matcher matches its joined path.  Files and surviving directories are
kept in order, the latter with their subtrees erased recursively. -/
def erasePruned (gitignore : Option Matcher) (path : String) :
    FSForest → FSForest
  | .nil => .nil
  | .cons (.file n sz ls) rest => .cons (.file n sz ls) (erasePruned gitignore path rest)
  | .cons (.dir nm cs) rest =>
      if dirSurvives gitignore path nm
      then .cons (.dir nm (erasePruned gitignore (pjoin path nm) cs))
        (erasePruned gitignore path rest)
      else erasePruned gitignore path rest

/-- Whether every node of a forest has a name not smaller than `s`. -/
def allNamesGE (s : String) : FSForest → Bool
  | .nil => true
  | .cons e rest => strLe s (nodeName e) && allNamesGE s rest

/-- Whether a forest is sorted by name at every level — the shape a real
directory listing has after `sorted` at each level. -/
def deepSortedB : FSForest → Bool
  | .nil => true
  | .cons (.file n _ _) rest => allNamesGE n rest && deepSortedB rest
  | .cons (.dir nm cs) rest => allNamesGE nm rest && deepSortedB cs && deepSortedB rest

/-- Rewriting of the size and lines of every file of a forest, keyed by the
file's name; directory structure and all names are unchanged.  Used to state
that file selection does not look at file contents. -/
def mapFileData (f : String → Nat × List String) : FSForest → FSForest
  | .nil => .nil
  | .cons (.file n _ _) rest => .cons (.file n (f n).1 (f n).2) (mapFileData f rest)
  | .cons (.dir nm cs) rest => .cons (.dir nm (mapFileData f cs)) (mapFileData f rest)

/-- The greatest byte size occurring in a file list (`0` when empty);
specification-side notion used to state the largest-file property. -/
def maxSizeOf (files : List FileEntry) : Nat :=
  (files.map (fun f => f.size)).foldr max 0

/-- Erasure of pruned subtrees applied inside each node of a listing while
keeping every node of the listing itself; the shape `treeFilter` output
takes after pruned subtrees are erased. -/
def mapChildrenErase (gitignore : Option Matcher) (path : String) :
    FSForest → FSForest
  | .nil => .nil
  | .cons (.file n sz ls) rest => .cons (.file n sz ls) (mapChildrenErase gitignore path rest)
  | .cons (.dir nm cs) rest =>
      .cons (.dir nm (erasePruned gitignore (pjoin path nm) cs))
        (mapChildrenErase gitignore path rest)

/-- Node-level form of `mapChildrenErase`: erase pruned subtrees inside one
node. -/
def mapNodeErase (gitignore : Option Matcher) (path : String) : FSNode → FSNode
  | .file n sz ls => .file n sz ls
  | .dir nm cs => .dir nm (erasePruned gitignore (pjoin path nm) cs)

/-- Whether no top-level node of a listing is named `.git`. -/
def noGitB : FSForest → Bool
  | .nil => true
  | .cons e rest => nodeName e != ".git" && noGitB rest

/-- Configuration of the repository checked out under its own name:
`REPO_NAME = 'repo-concatenate'`, `SCRIPT_NAME = 'repo_concatenate.py'`. -/
def chkConfig : Config := ⟨"repo-concatenate", "repo_concatenate.py"⟩

/-- Fixture: the repository root containing only the output artifact
(`repo-concatenate.txt`), as it stands during any run of the script once
`main` has opened the output file, or after a previous run. -/
def outputAtRoot : FSForest :=
  .cons (.file "repo-concatenate.txt" 10 ["old report"]) .nil

/-- Fixture: a root containing a single zero-byte file. -/
def emptyFileTree : FSForest := .cons (.file "empty.txt" 0 []) .nil

/-- Two thousand distinct lines for a large structured-data fixture. -/
def bigLines : List String := (List.range 2000).map (fun i => "line " ++ toString i)

/-- Fixture: a root containing one `.json` file of 2000 lines. -/
def bigJsonTree : FSForest := .cons (.file "big.json" 99999 bigLines) .nil

/-- Configuration for the `root/{a.txt, sub/{b.txt}}` tree fixture. -/
def rootConfig : Config := ⟨"root", "repo_concatenate.py"⟩

/-- Fixture tree `root/{a.txt, sub/{b.txt}}`. -/
def rootFixture : FSForest :=
  .cons (.file "a.txt" 3 ["hi"])
    (.cons (.dir "sub" (.cons (.file "b.txt" 2 ["yo"]) .nil)) .nil)

/-- Fixture list with two files of equal maximal size, largest first. -/
def tieFiles : List FileEntry :=
  [⟨"./a.txt", 3, ["x"]⟩, ⟨"./b.txt", 3, ["x", "y"]⟩, ⟨"./c.txt", 1, ["z"]⟩]

/-- Fixture list with two zero-byte files. -/
def zeroFiles : List FileEntry := [⟨"./a.txt", 0, []⟩, ⟨"./b.txt", 0, []⟩]

/-- A matcher that matches exactly the directory path `./junk`. -/
def pruneMatcher : Option Matcher := some (fun p => p == "./junk")

/-- Fixture: a root with a `.git` metadata directory, a kept file and an
ignored directory, names sorted. -/
def pruneFixture : FSForest :=
  .cons (.dir ".git" (.cons (.file "HEAD" 5 ["ref"]) .nil))
    (.cons (.file "a.txt" 3 ["hello"])
      (.cons (.dir "junk" (.cons (.file "x.txt" 2 ["y"]) .nil)) .nil))

/-- Appending a node at the end of a listing. -/
def appendNode (n : FSNode) : FSForest → FSForest
  | .nil => .cons n .nil
  | .cons m ms => .cons m (appendNode n ms)

/-- The root listing as the index and content walks of `main` see it: after
`open(OUTPUT_FILE, 'w')` the output artifact exists in the root directory.
Its position in the `os.scandir` order is filesystem-dependent; it is
modelled at the end of the listing.  Its size and content at walk time are
irrelevant to selection (file selection inspects only paths). -/
def withOutputFile (cfg : Config) (t : FSForest) : FSForest :=
  appendNode (.file cfg.outputFile 0 []) t

/-- Fixture: a fresh repository root containing a single source file and no
leftover output artifact. -/
def freshFixture : FSForest := .cons (.file "a.txt" 3 ["hello"]) .nil

/-! ### Arithmetic of the per-extension line counts -/

theorem sum_bump (e : String) (k : Nat) :
    ∀ m : List (String × Nat),
      ((bump e k m).map Prod.snd).sum = (m.map Prod.snd).sum + k := by
  intro m
  induction m with
  | nil => simp [bump]
  | cons p rest ih =>
      obtain ⟨e₀, v⟩ := p
      by_cases h : e₀ = e <;> simp [bump, h, ih] <;> omega

theorem count_total_lines_eq_sum (files : List FileEntry) :
    count_total_lines files = (files.map (fun f => f.lines.length)).sum := by
  have aux : ∀ fs : List FileEntry, ∀ a : Nat,
      fs.foldl (fun t f => t + f.lines.length) a =
        a + (fs.map (fun f => f.lines.length)).sum := by
    intro fs
    induction fs with
    | nil => intro a; simp
    | cons f rest ih => intro a; simp [ih]; omega
  simpa [count_total_lines] using aux files 0

theorem bump_fold_sum (files : List FileEntry) :
    ∀ m : List (String × Nat),
      ((files.foldl (fun m f => bump (extOf f.path) f.lines.length m) m).map
          Prod.snd).sum =
        (m.map Prod.snd).sum + (files.map (fun f => f.lines.length)).sum := by
  induction files with
  | nil => intro m; simp
  | cons f rest ih =>
      intro m
      simp only [List.foldl_cons, List.map_cons, List.sum_cons]
      rw [ih, sum_bump]
      omega

/-! ### The largest-file fold -/

theorem size_le_maxSizeOf (files : List FileEntry) :
    ∀ f ∈ files, f.size ≤ maxSizeOf files := by
  induction files with
  | nil => simp
  | cons g rest ih =>
      intro f hf
      rcases List.mem_cons.mp hf with h | h
      · simp [h, maxSizeOf]
      · exact le_trans (ih f h) (by simp [maxSizeOf])

theorem find_largest_file_stays (acc : LargestInfo) :
    ∀ files : List FileEntry, (∀ f ∈ files, f.size ≤ acc.size) →
      files.foldl
        (fun largest f =>
          if f.size > largest.size
          then ⟨basename f.path, f.size, f.lines.length⟩
          else largest) acc = acc := by
  intro files
  induction files generalizing acc with
  | nil => intro _; rfl
  | cons f rest ih =>
      intro h
      have hf : ¬ f.size > acc.size := by
        have := h f (by simp)
        omega
      simp only [List.foldl_cons, if_neg hf]
      exact ih acc (fun g hg => h g (by simp [hg]))

theorem find_largest_file_first_max_aux :
    ∀ files : List FileEntry, ∀ acc : LargestInfo,
      acc.size < maxSizeOf files →
      ∃ e, files.find? (fun x => x.size == maxSizeOf files) = some e ∧
        files.foldl
          (fun largest f =>
            if f.size > largest.size
            then ⟨basename f.path, f.size, f.lines.length⟩
            else largest) acc = ⟨basename e.path, e.size, e.lines.length⟩ := by
  intro files
  induction files with
  | nil => intro acc h; simp [maxSizeOf] at h
  | cons f rest ih =>
      intro acc h
      have hM : maxSizeOf (f :: rest) = max f.size (maxSizeOf rest) := rfl
      by_cases hf : f.size = maxSizeOf (f :: rest)
      · refine ⟨f, ?_, ?_⟩
        · simp [List.find?_cons, hf]
        · have hgt : f.size > acc.size := by omega
          simp only [List.foldl_cons, if_pos hgt]
          refine find_largest_file_stays _ rest (fun g hg => ?_)
          show g.size ≤ f.size
          have h1 := size_le_maxSizeOf rest g hg
          omega
      · have hlt : f.size < maxSizeOf (f :: rest) := by
          have h1 : f.size ≤ maxSizeOf (f :: rest) :=
            size_le_maxSizeOf (f :: rest) f (by simp)
          omega
        have hMr : maxSizeOf (f :: rest) = maxSizeOf rest := by omega
        have hacc : (if f.size > acc.size
            then (⟨basename f.path, f.size, f.lines.length⟩ : LargestInfo)
            else acc).size < maxSizeOf rest := by
          by_cases hc : f.size > acc.size
          · rw [if_pos hc]
            show f.size < maxSizeOf rest
            omega
          · rw [if_neg hc]
            omega
        obtain ⟨e, he1, he2⟩ := ih _ hacc
        refine ⟨e, ?_, ?_⟩
        · have hne : (f.size == maxSizeOf rest) = false := by
            simp only [beq_eq_false_iff_ne, ne_eq]
            omega
          rw [hMr]
          simp [List.find?_cons, hne, he1]
        · simpa using he2

/-! ### The three walk passes compute the same selection -/

theorem indexFilesOf_eq (cfg : Config) (g : Option Matcher) :
    ∀ ns : FSForest, ∀ root : String,
      indexFilesOf cfg g root ns =
        (filesOf cfg g root ns).map (fun e => relpath e.path) := by
  intro ns
  induction ns using forestInd with
  | h0 => intro root; rfl
  | hf n sz ls rest ih =>
      intro root
      by_cases h : should_include_file cfg (pjoin root n) g <;>
        simp [indexFilesOf, filesOf, h, ih]
  | hd nm cs rest ihc ihr =>
      intro root
      simp [indexFilesOf, filesOf, ihr]

theorem indexWalkDirs_eq (cfg : Config) (g : Option Matcher) :
    ∀ ns : FSForest, ∀ root : String,
      indexWalkDirs cfg g root ns =
        (statsWalkDirs cfg g root ns).map (fun e => relpath e.path) := by
  intro ns
  induction ns using forestInd with
  | h0 => intro root; rfl
  | hf n sz ls rest ih =>
      intro root
      simp [indexWalkDirs, statsWalkDirs, ih]
  | hd nm cs rest ihc ihr =>
      intro root
      by_cases h : dirSurvives g root nm <;>
        simp [indexWalkDirs, statsWalkDirs, h, ihc, ihr, indexFilesOf_eq]

theorem fileIndexPaths_char (cfg : Config) (g : Option Matcher) (t : FSForest) :
    fileIndexPaths cfg g t =
      (get_relevant_files cfg g t).map (fun e => relpath e.path) := by
  simp [fileIndexPaths, get_relevant_files, indexFilesOf_eq, indexWalkDirs_eq]

theorem contentFilesOf_eq (cfg : Config) (g : Option Matcher) :
    ∀ ns : FSForest, ∀ root : String,
      contentFilesOf cfg g root ns =
        (filesOf cfg g root ns).map (fun e => (relpath e.path, e.lines)) := by
  intro ns
  induction ns using forestInd with
  | h0 => intro root; rfl
  | hf n sz ls rest ih =>
      intro root
      by_cases h : should_include_file cfg (pjoin root n) g <;>
        simp [contentFilesOf, filesOf, h, ih]
  | hd nm cs rest ihc ihr =>
      intro root
      simp [contentFilesOf, filesOf, ihr]

theorem contentWalkDirs_eq (cfg : Config) (g : Option Matcher) :
    ∀ ns : FSForest, ∀ root : String,
      contentWalkDirs cfg g root ns =
        (statsWalkDirs cfg g root ns).map (fun e => (relpath e.path, e.lines)) := by
  intro ns
  induction ns using forestInd with
  | h0 => intro root; rfl
  | hf n sz ls rest ih =>
      intro root
      simp [contentWalkDirs, statsWalkDirs, ih]
  | hd nm cs rest ihc ihr =>
      intro root
      by_cases h : dirSurvives g root nm <;>
        simp [contentWalkDirs, statsWalkDirs, h, ihc, ihr, contentFilesOf_eq]

theorem contentSections_char (cfg : Config) (g : Option Matcher) (t : FSForest) :
    contentSections cfg g t =
      (get_relevant_files cfg g t).map (fun e => (relpath e.path, e.lines)) := by
  simp [contentSections, get_relevant_files, contentFilesOf_eq, contentWalkDirs_eq]

/-! ### File selection does not depend on file contents -/

theorem filesOf_mapFileData (cfg : Config) (g : Option Matcher)
    (F : String → Nat × List String) :
    ∀ ns : FSForest, ∀ root : String,
      (filesOf cfg g root (mapFileData F ns)).map (fun e => e.path) =
        (filesOf cfg g root ns).map (fun e => e.path) := by
  intro ns
  induction ns using forestInd with
  | h0 => intro root; rfl
  | hf n sz ls rest ih =>
      intro root
      by_cases h : should_include_file cfg (pjoin root n) g <;>
        simp [mapFileData, filesOf, h, ih]
  | hd nm cs rest ihc ihr =>
      intro root
      simp [mapFileData, filesOf, ihr]

theorem statsWalkDirs_mapFileData (cfg : Config) (g : Option Matcher)
    (F : String → Nat × List String) :
    ∀ ns : FSForest, ∀ root : String,
      (statsWalkDirs cfg g root (mapFileData F ns)).map (fun e => e.path) =
        (statsWalkDirs cfg g root ns).map (fun e => e.path) := by
  intro ns
  induction ns using forestInd with
  | h0 => intro root; rfl
  | hf n sz ls rest ih =>
      intro root
      simp [mapFileData, statsWalkDirs, ih]
  | hd nm cs rest ihc ihr =>
      intro root
      by_cases h : dirSurvives g root nm <;>
        simp [mapFileData, statsWalkDirs, h, ihc, ihr, filesOf_mapFileData]

theorem get_relevant_files_mapFileData (cfg : Config) (g : Option Matcher)
    (F : String → Nat × List String) (t : FSForest) :
    (get_relevant_files cfg g (mapFileData F t)).map (fun e => e.path) =
      (get_relevant_files cfg g t).map (fun e => e.path) := by
  simp [get_relevant_files, filesOf_mapFileData, statsWalkDirs_mapFileData]

/-! ### Pruned directories contribute nothing to the walk -/

theorem filesOf_erase (cfg : Config) (g : Option Matcher) :
    ∀ ns : FSForest, ∀ root path : String,
      filesOf cfg g root (erasePruned g path ns) = filesOf cfg g root ns := by
  intro ns
  induction ns using forestInd with
  | h0 => intro root path; rfl
  | hf n sz ls rest ih =>
      intro root path
      simp only [erasePruned, filesOf, ih]
  | hd nm cs rest ihc ihr =>
      intro root path
      by_cases h : dirSurvives g path nm <;>
        simp [erasePruned, h, filesOf, ihr]

theorem statsWalkDirs_erase (cfg : Config) (g : Option Matcher) :
    ∀ ns : FSForest, ∀ path : String,
      statsWalkDirs cfg g path (erasePruned g path ns) =
        statsWalkDirs cfg g path ns := by
  intro ns
  induction ns using forestInd with
  | h0 => intro path; rfl
  | hf n sz ls rest ih =>
      intro path
      simp only [erasePruned, statsWalkDirs, ih]
  | hd nm cs rest ihc ihr =>
      intro path
      by_cases h : dirSurvives g path nm
      · simp [erasePruned, h, statsWalkDirs, ihr, ihc, filesOf_erase]
      · simp [erasePruned, h, statsWalkDirs, ihr]

theorem get_relevant_files_erase (cfg : Config) (g : Option Matcher)
    (t : FSForest) :
    get_relevant_files cfg g (erasePruned g "." t) =
      get_relevant_files cfg g t := by
  simp only [get_relevant_files, filesOf_erase, statsWalkDirs_erase]

/-! ### Membership, depth and sortedness facts -/

theorem memF_insertByName :
    ∀ ms : FSForest, ∀ e n : FSNode,
      memF e (insertByName n ms) → e = n ∨ memF e ms := by
  intro ms
  induction ms using forestInd with
  | h0 =>
      intro e n h
      simpa [insertByName, memF] using h
  | hf m sz ls rest ih =>
      intro e n h
      by_cases hc : strLe (nodeName n) (nodeName (FSNode.file m sz ls)) <;>
        simp only [insertByName, hc, if_true, if_false, memF] at h
      · tauto
      · rcases h with h | h
        · exact Or.inr (Or.inl h)
        · rcases ih e n h with h | h
          · exact Or.inl h
          · exact Or.inr (Or.inr h)
  | hd nm cs rest ihc ihr =>
      intro e n h
      by_cases hc : strLe (nodeName n) (nodeName (FSNode.dir nm cs)) <;>
        simp only [insertByName, hc, if_true, if_false, memF] at h
      · tauto
      · rcases h with h | h
        · exact Or.inr (Or.inl h)
        · rcases ihr e n h with h | h
          · exact Or.inl h
          · exact Or.inr (Or.inr h)

theorem memF_sortForest :
    ∀ ms : FSForest, ∀ e : FSNode, memF e (sortForest ms) → memF e ms := by
  intro ms
  induction ms using forestInd with
  | h0 => intro e h; exact h
  | hf m sz ls rest ih =>
      intro e h
      rcases memF_insertByName _ e _ h with h | h
      · exact Or.inl h
      · exact Or.inr (ih e h)
  | hd nm cs rest ihc ihr =>
      intro e h
      rcases memF_insertByName _ e _ h with h | h
      · exact Or.inl h
      · exact Or.inr (ihr e h)

theorem memF_nameFilter (cfg : Config) :
    ∀ ms : FSForest, ∀ e : FSNode, memF e (nameFilter cfg ms) → memF e ms := by
  intro ms
  induction ms using forestInd with
  | h0 => intro e h; exact h
  | hf m sz ls rest ih =>
      intro e h
      by_cases hc : (nodeName (FSNode.file m sz ls) != ".git" &&
          nodeName (FSNode.file m sz ls) != cfg.outputFile &&
            nodeName (FSNode.file m sz ls) != cfg.scriptName &&
              nodeName (FSNode.file m sz ls) != GITIGNORE_FILENAME) = true <;>
        simp only [nameFilter] at h
      · rw [if_pos hc] at h
        rcases h with h | h
        · exact Or.inl h
        · exact Or.inr (ih e h)
      · rw [if_neg hc] at h
        exact Or.inr (ih e h)
  | hd nm cs rest ihc ihr =>
      intro e h
      by_cases hc : (nodeName (FSNode.dir nm cs) != ".git" &&
          nodeName (FSNode.dir nm cs) != cfg.outputFile &&
            nodeName (FSNode.dir nm cs) != cfg.scriptName &&
              nodeName (FSNode.dir nm cs) != GITIGNORE_FILENAME) = true <;>
        simp only [nameFilter] at h
      · rw [if_pos hc] at h
        rcases h with h | h
        · exact Or.inl h
        · exact Or.inr (ihr e h)
      · rw [if_neg hc] at h
        exact Or.inr (ihr e h)

theorem memF_matcherFilter (g : Option Matcher) (path : String) :
    ∀ ms : FSForest, ∀ e : FSNode, memF e (matcherFilter g path ms) → memF e ms := by
  intro ms
  induction ms using forestInd with
  | h0 => intro e h; cases g <;> exact h
  | hf m sz ls rest ih =>
      intro e h
      cases g with
      | none =>
          simp only [matcherFilter, memF] at h
          rcases h with h | h
          · exact Or.inl h
          · exact Or.inr (ih e h)
      | some f =>
          by_cases hc : (!(f (pjoin path (nodeName (FSNode.file m sz ls))))) = true <;>
            simp only [matcherFilter] at h
          · rw [if_pos hc] at h
            rcases h with h | h
            · exact Or.inl h
            · exact Or.inr (ih e h)
          · rw [if_neg hc] at h
            exact Or.inr (ih e h)
  | hd nm cs rest ihc ihr =>
      intro e h
      cases g with
      | none =>
          simp only [matcherFilter, memF] at h
          rcases h with h | h
          · exact Or.inl h
          · exact Or.inr (ihr e h)
      | some f =>
          by_cases hc : (!(f (pjoin path (nodeName (FSNode.dir nm cs))))) = true <;>
            simp only [matcherFilter] at h
          · rw [if_pos hc] at h
            rcases h with h | h
            · exact Or.inl h
            · exact Or.inr (ihr e h)
          · rw [if_neg hc] at h
            exact Or.inr (ihr e h)

theorem memF_treeFilter (cfg : Config) (g : Option Matcher) (path : String)
    (ms : FSForest) (e : FSNode) (h : memF e (treeFilter cfg g path ms)) :
    memF e ms :=
  memF_nameFilter cfg ms e (memF_matcherFilter g path _ e h)

theorem depthF_mem :
    ∀ ns : FSForest, ∀ nm : String, ∀ cs : FSForest,
      memF (.dir nm cs) ns → depthF cs < depthF ns := by
  intro ns
  induction ns using forestInd with
  | h0 => intro nm cs h; exact absurd h id
  | hf n sz ls rest ih =>
      intro nm cs h
      rcases h with h | h
      · exact absurd h (by simp)
      · simpa [depthF] using ih nm cs h
  | hd nm₀ cs₀ rest ihc ihr =>
      intro nm cs h
      rcases h with h | h
      · have : cs = cs₀ := by
          injection h with h1 h2
        rw [this]
        simp only [depthF]
        omega
      · have := ihr nm cs h
        simp only [depthF]
        omega

theorem deepSortedB_mem :
    ∀ ns : FSForest, deepSortedB ns = true →
      ∀ nm : String, ∀ cs : FSForest,
        memF (.dir nm cs) ns → deepSortedB cs = true := by
  intro ns
  induction ns using forestInd with
  | h0 => intro _ nm cs h; exact absurd h id
  | hf n sz ls rest ih =>
      intro hs nm cs h
      simp only [deepSortedB, Bool.and_eq_true] at hs
      rcases h with h | h
      · exact absurd h (by simp)
      · exact ih hs.2 nm cs h
  | hd nm₀ cs₀ rest ihc ihr =>
      intro hs nm cs h
      simp only [deepSortedB, Bool.and_eq_true] at hs
      rcases h with h | h
      · have : cs = cs₀ := by injection h with h1 h2
        rw [this]
        exact hs.1.2
      · exact ihr hs.2 nm cs h

theorem allNamesGE_erase (g : Option Matcher) :
    ∀ ns : FSForest, ∀ s path : String,
      allNamesGE s ns = true → allNamesGE s (erasePruned g path ns) = true := by
  intro ns
  induction ns using forestInd with
  | h0 => intro s path h; exact h
  | hf n sz ls rest ih =>
      intro s path h
      simp only [allNamesGE, Bool.and_eq_true] at h ⊢
      exact ⟨h.1, ih s path h.2⟩
  | hd nm cs rest ihc ihr =>
      intro s path h
      simp only [allNamesGE, Bool.and_eq_true] at h
      by_cases hc : dirSurvives g path nm
      · simp only [erasePruned, hc, if_true, allNamesGE, Bool.and_eq_true]
        exact ⟨h.1, ihr s path h.2⟩
      · simp [erasePruned, hc]
        exact ihr s path h.2

theorem deepSortedB_erase (g : Option Matcher) :
    ∀ ns : FSForest, ∀ path : String,
      deepSortedB ns = true → deepSortedB (erasePruned g path ns) = true := by
  intro ns
  induction ns using forestInd with
  | h0 => intro path h; exact h
  | hf n sz ls rest ih =>
      intro path h
      simp only [deepSortedB, Bool.and_eq_true] at h ⊢
      exact ⟨allNamesGE_erase g rest n path h.1, ih path h.2⟩
  | hd nm cs rest ihc ihr =>
      intro path h
      simp only [deepSortedB, Bool.and_eq_true] at h
      by_cases hc : dirSurvives g path nm
      · simp only [erasePruned, hc, if_true, deepSortedB, Bool.and_eq_true]
        exact ⟨⟨allNamesGE_erase g rest nm path h.1.1,
          ihc (pjoin path nm) h.1.2⟩, ihr path h.2⟩
      · simp [erasePruned, hc]
        exact ihr path h.2

theorem insertByName_front (e : FSNode) :
    ∀ rest : FSForest, allNamesGE (nodeName e) rest = true →
      insertByName e rest = .cons e rest := by
  intro rest h
  cases rest with
  | nil => rfl
  | cons m ms =>
      simp only [allNamesGE, Bool.and_eq_true] at h
      simp only [insertByName, h.1, if_true]

theorem sortForest_id :
    ∀ ns : FSForest, deepSortedB ns = true → sortForest ns = ns := by
  intro ns
  induction ns using forestInd with
  | h0 => intro _; rfl
  | hf n sz ls rest ih =>
      intro h
      simp only [deepSortedB, Bool.and_eq_true] at h
      simp only [sortForest, ih h.2]
      exact insertByName_front _ rest h.1
  | hd nm cs rest ihc ihr =>
      intro h
      simp only [deepSortedB, Bool.and_eq_true] at h
      simp only [sortForest, ihr h.2]
      exact insertByName_front _ rest h.1.1

theorem depthF_erase_le (g : Option Matcher) :
    ∀ ns : FSForest, ∀ path : String,
      depthF (erasePruned g path ns) ≤ depthF ns := by
  intro ns
  induction ns using forestInd with
  | h0 => intro path; exact Nat.le_refl _
  | hf n sz ls rest ih =>
      intro path
      simpa [erasePruned, depthF] using ih path
  | hd nm cs rest ihc ihr =>
      intro path
      by_cases hc : dirSurvives g path nm
      · simp only [erasePruned, hc, if_true, depthF]
        have h1 := ihc (pjoin path nm)
        have h2 := ihr path
        omega
      · have h2 := ihr path
        simp [erasePruned, hc, depthF]
        omega

theorem noGitB_nameFilter (cfg : Config) :
    ∀ ns : FSForest, noGitB (nameFilter cfg ns) = true := by
  intro ns
  induction ns using forestInd with
  | h0 => rfl
  | hf n sz ls rest ih =>
      by_cases hc : (nodeName (FSNode.file n sz ls) != ".git" &&
          nodeName (FSNode.file n sz ls) != cfg.outputFile &&
            nodeName (FSNode.file n sz ls) != cfg.scriptName &&
              nodeName (FSNode.file n sz ls) != GITIGNORE_FILENAME) = true
      · simp only [nameFilter, hc, if_true, noGitB, Bool.and_eq_true]
        simp only [Bool.and_eq_true] at hc
        exact ⟨hc.1.1.1, ih⟩
      · simp only [nameFilter, hc, if_false]
        exact ih
  | hd nm cs rest ihc ihr =>
      by_cases hc : (nodeName (FSNode.dir nm cs) != ".git" &&
          nodeName (FSNode.dir nm cs) != cfg.outputFile &&
            nodeName (FSNode.dir nm cs) != cfg.scriptName &&
              nodeName (FSNode.dir nm cs) != GITIGNORE_FILENAME) = true
      · simp only [nameFilter, hc, if_true, noGitB, Bool.and_eq_true]
        simp only [Bool.and_eq_true] at hc
        exact ⟨hc.1.1.1, ihr⟩
      · simp only [nameFilter, hc, if_false]
        exact ihr

/-! ### Erasing pruned subtrees commutes with the tree-rendering filters -/

theorem matcherFilter_none :
    ∀ ns : FSForest, ∀ path : String, matcherFilter none path ns = ns := by
  intro ns
  induction ns using forestInd with
  | h0 => intro path; rfl
  | hf n sz ls rest ih => intro path; simp only [matcherFilter, ih]
  | hd nm cs rest ihc ihr => intro path; simp only [matcherFilter, ihr]

theorem renderEntriesWith_congr
    (r₁ r₂ : String → String → FSForest → List String) :
    ∀ es : FSForest, ∀ path pre : String,
      (∀ e, memF e es → isDir e = true →
        ∀ p q, r₁ p q (childrenOf e) = r₂ p q (childrenOf e)) →
      renderEntriesWith r₁ path pre es = renderEntriesWith r₂ path pre es := by
  intro es
  induction es using forestInd with
  | h0 => intro path pre _; rfl
  | hf n sz ls rest ih =>
      intro path pre hyp
      cases rest with
      | nil => rfl
      | cons m ms =>
          simp only [renderEntriesWith, isDir, Bool.false_eq_true, if_false]
          rw [ih path pre (fun e he hd => hyp e (Or.inr he) hd)]
  | hd nm cs rest ihc ihr =>
      intro path pre hyp
      cases rest with
      | nil =>
          simp only [renderEntriesWith, isDir, if_true]
          rw [hyp (.dir nm cs) (Or.inl rfl) rfl]
      | cons m ms =>
          simp only [renderEntriesWith, isDir, if_true]
          rw [hyp (.dir nm cs) (Or.inl rfl) rfl,
            ihr path pre (fun e he hd => hyp e (Or.inr he) hd)]

theorem mapCE_cons (g : Option Matcher) (path : String) (m : FSNode)
    (ms : FSForest) :
    mapChildrenErase g path (.cons m ms) =
      .cons (mapNodeErase g path m) (mapChildrenErase g path ms) := by
  cases m <;> rfl

theorem nameFilter_erase (cfg : Config) (g : Option Matcher) :
    ∀ ns : FSForest, ∀ path : String,
      nameFilter cfg (erasePruned g path ns) =
        erasePruned g path (nameFilter cfg ns) := by
  intro ns
  induction ns using forestInd with
  | h0 => intro path; rfl
  | hf n sz ls rest ih =>
      intro path
      by_cases hc : (n != ".git" && n != cfg.outputFile && n != cfg.scriptName &&
          n != GITIGNORE_FILENAME) = true <;>
        simp [erasePruned, nameFilter, nodeName, hc, ih]
  | hd nm cs rest ihc ihr =>
      intro path
      by_cases hc : (nm != ".git" && nm != cfg.outputFile && nm != cfg.scriptName &&
          nm != GITIGNORE_FILENAME) = true <;>
      by_cases hs : dirSurvives g path nm <;>
        simp [erasePruned, nameFilter, nodeName, hc, hs, ihr]

theorem erasePruned_noGit_none :
    ∀ ms : FSForest, ∀ path : String, noGitB ms = true →
      erasePruned none path ms = mapChildrenErase none path ms := by
  intro ms
  induction ms using forestInd with
  | h0 => intro path _; rfl
  | hf n sz ls rest ih =>
      intro path h
      simp only [noGitB, nodeName, Bool.and_eq_true] at h
      simp only [erasePruned, mapChildrenErase, ih path h.2]
  | hd nm cs rest ihc ihr =>
      intro path h
      simp only [noGitB, nodeName, Bool.and_eq_true] at h
      have hs : dirSurvives none path nm = true := by
        simp [dirSurvives, h.1]
      simp only [erasePruned, hs, if_true, mapChildrenErase, ihr path h.2]

theorem matcherFilter_erase (g : Option Matcher) :
    ∀ ms : FSForest, ∀ path : String, noGitB ms = true →
      matcherFilter g path (erasePruned g path ms) =
        mapChildrenErase g path (matcherFilter g path ms) := by
  cases g with
  | none =>
      intro ms path h
      rw [matcherFilter_none, matcherFilter_none]
      exact erasePruned_noGit_none ms path h
  | some m =>
      intro ms
      induction ms using forestInd with
      | h0 => intro path _; rfl
      | hf n sz ls rest ih =>
          intro path h
          simp only [noGitB, nodeName, Bool.and_eq_true] at h
          by_cases hm : m (pjoin path n) = true <;>
            simp [erasePruned, matcherFilter, mapChildrenErase, nodeName, hm,
              ih path h.2]
      | hd nm cs rest ihc ihr =>
          intro path h
          simp only [noGitB, nodeName, Bool.and_eq_true] at h
          by_cases hm : m (pjoin path nm) = true
          · have hs : dirSurvives (some m) path nm = false := by
              simp [dirSurvives, hm]
            simp [erasePruned, hs, matcherFilter, nodeName, hm, ihr path h.2]
          · have hs : dirSurvives (some m) path nm = true := by
              simp [dirSurvives, h.1, hm]
            simp [erasePruned, hs, matcherFilter, mapChildrenErase, nodeName,
              hm, ihr path h.2]

theorem treeFilter_erase (cfg : Config) (g : Option Matcher) :
    ∀ ns : FSForest, ∀ path : String,
      treeFilter cfg g path (erasePruned g path ns) =
        mapChildrenErase g path (treeFilter cfg g path ns) := by
  intro ns path
  rw [treeFilter, treeFilter, nameFilter_erase,
    matcherFilter_erase g _ path (noGitB_nameFilter cfg ns)]

theorem renderEntriesWith_mapCE (g : Option Matcher)
    (rec : String → String → FSForest → List String) :
    ∀ es : FSForest, ∀ path pre : String,
      (∀ nm cs, memF (.dir nm cs) es → ∀ q : String,
        rec (pjoin path nm) q (erasePruned g (pjoin path nm) cs) =
          rec (pjoin path nm) q cs) →
      renderEntriesWith rec path pre (mapChildrenErase g path es) =
        renderEntriesWith rec path pre es := by
  intro es
  induction es using forestInd with
  | h0 => intro path pre _; rfl
  | hf n sz ls rest ih =>
      intro path pre hyp
      cases rest with
      | nil => rfl
      | cons m ms =>
          simp only [mapChildrenErase]
          rw [mapCE_cons]
          simp only [renderEntriesWith, isDir, Bool.false_eq_true, if_false]
          rw [← mapCE_cons, ih path pre (fun nm cs hmem q => hyp nm cs (Or.inr hmem) q)]
  | hd nm cs rest ihc ihr =>
      intro path pre hyp
      cases rest with
      | nil =>
          simp only [mapChildrenErase, renderEntriesWith, isDir, nodeName,
            childrenOf, if_true]
          rw [hyp nm cs (Or.inl rfl) (pre ++ "    ")]
      | cons m ms =>
          simp only [mapChildrenErase]
          rw [mapCE_cons]
          simp only [renderEntriesWith, isDir, nodeName, childrenOf, if_true]
          rw [hyp nm cs (Or.inl rfl) (pre ++ "│   "), ← mapCE_cons,
            ihr path pre (fun nm₁ cs₁ hmem q => hyp nm₁ cs₁ (Or.inr hmem) q)]

theorem add_fuel_stable (cfg : Config) (g : Option Matcher) :
    ∀ f₁ f₂ : Nat, ∀ cs : FSForest, ∀ path pre : String,
      depthF cs < f₁ → depthF cs < f₂ →
      add_to_structure cfg g f₁ path pre cs =
        add_to_structure cfg g f₂ path pre cs := by
  intro f₁
  induction f₁ with
  | zero => intro f₂ cs path pre h1 h2; omega
  | succ a ih =>
      intro f₂ cs path pre h1 h2
      cases f₂ with
      | zero => omega
      | succ b =>
          simp only [add_to_structure]
          refine renderEntriesWith_congr _ _ _ path pre (fun e he hd p q => ?_)
          cases e with
          | file n sz ls => simp [isDir] at hd
          | dir nm cs₁ =>
              have hm : memF (.dir nm cs₁) cs :=
                memF_sortForest cs _ (memF_treeFilter cfg g path _ _ he)
              have hlt : depthF cs₁ < depthF cs := depthF_mem cs nm cs₁ hm
              show add_to_structure cfg g a p q cs₁ =
                add_to_structure cfg g b p q cs₁
              exact ih b cs₁ p q (by omega) (by omega)

theorem add_to_structure_erase (cfg : Config) (g : Option Matcher) :
    ∀ fuel : Nat, ∀ cs : FSForest, ∀ path pre : String,
      deepSortedB cs = true → depthF cs < fuel →
      add_to_structure cfg g fuel path pre (erasePruned g path cs) =
        add_to_structure cfg g fuel path pre cs := by
  intro fuel
  induction fuel with
  | zero => intro cs path pre _ h; omega
  | succ a ih =>
      intro cs path pre hs hd
      simp only [add_to_structure]
      rw [sortForest_id _ (deepSortedB_erase g cs path hs), sortForest_id _ hs,
        treeFilter_erase]
      refine renderEntriesWith_mapCE g _ _ path pre (fun nm cs₁ hmem q => ?_)
      have hm : memF (.dir nm cs₁) cs := memF_treeFilter cfg g path cs _ hmem
      exact ih cs₁ (pjoin path nm) q (deepSortedB_mem cs hs nm cs₁ hm)
        (by have := depthF_mem cs nm cs₁ hm; omega)

theorem get_folder_structure_erase (cfg : Config) (g : Option Matcher)
    (t : FSForest) (h : deepSortedB t = true) :
    get_folder_structure cfg g (erasePruned g "." t) =
      get_folder_structure cfg g t := by
  simp only [get_folder_structure]
  congr 1
  rw [add_fuel_stable cfg g (depthF (erasePruned g "." t) + 1) (depthF t + 1)
    (erasePruned g "." t) "." "" (by omega)
    (by have := depthF_erase_le g t "."; omega)]
  exact add_to_structure_erase cfg g (depthF t + 1) t "." "" h (by omega)

/-! ### No matcher behaves like an always-false matcher -/

theorem should_include_file_gfalse (cfg : Config) (p : String) :
    should_include_file cfg p (some (fun _ => false)) =
      should_include_file cfg p none := rfl

theorem dirSurvives_gfalse (root nm : String) :
    dirSurvives (some (fun _ => false)) root nm = dirSurvives none root nm := rfl

theorem filesOf_gfalse (cfg : Config) :
    ∀ ns : FSForest, ∀ root : String,
      filesOf cfg (some (fun _ => false)) root ns = filesOf cfg none root ns := by
  intro ns
  induction ns using forestInd with
  | h0 => intro root; rfl
  | hf n sz ls rest ih =>
      intro root
      simp only [filesOf, should_include_file_gfalse, ih]
  | hd nm cs rest ihc ihr =>
      intro root
      simp only [filesOf, ihr]

theorem statsWalkDirs_gfalse (cfg : Config) :
    ∀ ns : FSForest, ∀ root : String,
      statsWalkDirs cfg (some (fun _ => false)) root ns =
        statsWalkDirs cfg none root ns := by
  intro ns
  induction ns using forestInd with
  | h0 => intro root; rfl
  | hf n sz ls rest ih =>
      intro root
      simp only [statsWalkDirs, ih]
  | hd nm cs rest ihc ihr =>
      intro root
      simp only [statsWalkDirs, dirSurvives_gfalse, ihc, ihr, filesOf_gfalse]

theorem get_relevant_files_gfalse (cfg : Config) (t : FSForest) :
    get_relevant_files cfg (some (fun _ => false)) t =
      get_relevant_files cfg none t := by
  simp only [get_relevant_files, filesOf_gfalse, statsWalkDirs_gfalse]

theorem matcherFilter_gfalse :
    ∀ ns : FSForest, ∀ path : String,
      matcherFilter (some (fun _ => false)) path ns = ns := by
  intro ns
  induction ns using forestInd with
  | h0 => intro path; rfl
  | hf n sz ls rest ih =>
      intro path
      simp only [matcherFilter, Bool.not_false, if_pos, ih]
  | hd nm cs rest ihc ihr =>
      intro path
      simp only [matcherFilter, Bool.not_false, if_pos, ihr]

theorem treeFilter_gfalse (cfg : Config) (path : String) (ns : FSForest) :
    treeFilter cfg (some (fun _ => false)) path ns = treeFilter cfg none path ns := by
  simp only [treeFilter, matcherFilter_none, matcherFilter_gfalse]

theorem add_to_structure_gfalse (cfg : Config) :
    ∀ fuel : Nat, ∀ path pre : String, ∀ cs : FSForest,
      add_to_structure cfg (some (fun _ => false)) fuel path pre cs =
        add_to_structure cfg none fuel path pre cs := by
  intro fuel
  induction fuel with
  | zero => intro path pre cs; rfl
  | succ a ih =>
      intro path pre cs
      simp only [add_to_structure, treeFilter_gfalse]
      exact renderEntriesWith_congr _ _ _ path pre
        (fun e _ _ p q => ih p q (childrenOf e))

theorem get_folder_structure_gfalse (cfg : Config) (t : FSForest) :
    get_folder_structure cfg (some (fun _ => false)) t =
      get_folder_structure cfg none t := by
  simp only [get_folder_structure, add_to_structure_gfalse]

/-! ### Claim theorems -/

/-- On one fixed tree the three duplicated walks select the same files in
the same order — so the only divergence between the emitted sections comes
from the filesystem changing between the walks, namely `main` creating the
output artifact after the statistics walk and before the index and content
walks. -/
theorem walks_agree_on_fixed_tree (cfg : Config) (g : Option Matcher)
    (t : FSForest) :
    fileIndexPaths cfg g t =
      (get_relevant_files cfg g t).map (fun e => relpath e.path) ∧
    (contentSections cfg g t).map Prod.fst = fileIndexPaths cfg g t := by
  refine ⟨fileIndexPaths_char cfg g t, ?_⟩
  rw [contentSections_char, fileIndexPaths_char, List.map_map]
  rfl

/-- C1: the claim asserts the statistics list, the file index and the
content sections are identical, but `main` computes the statistics on the
tree as it stands before `open(OUTPUT_FILE, 'w')` and the index and content
walks on the tree after it; the artifact created in between passes
`should_include_file` (its walk path `./repo-concatenate.txt` differs from
the bare `OUTPUT_FILE` name), so on a fresh fixture the statistics list has
one file while the file index and the content sections list two — different
counts, not identical. -/
theorem C1_artifact_creation_desyncs_passes :
    (get_relevant_files chkConfig none freshFixture).map (fun e => e.path) =
      ["./a.txt"] ∧
    fileIndexPaths chkConfig none (withOutputFile chkConfig freshFixture) =
      ["a.txt", "repo-concatenate.txt"] ∧
    (contentSections chkConfig none
        (withOutputFile chkConfig freshFixture)).map Prod.fst =
      ["a.txt", "repo-concatenate.txt"] ∧
    (get_relevant_files chkConfig none freshFixture).length ≠
      (fileIndexPaths chkConfig none
        (withOutputFile chkConfig freshFixture)).length := by
  decide

/-- C2: the claim asserts the output artifact is never a member of any
filtered set, but `should_include_file` compares the full walk path
(`./repo-concatenate.txt`) against the bare `OUTPUT_FILE` name
(`repo-concatenate.txt`), so the output artifact at the repository root
passes the filter and appears in the statistics list, the file index and the
content sections; only the tree rendering (which compares names) omits it. -/
theorem C2_output_artifact_included :
    should_include_file chkConfig "./repo-concatenate.txt" none = true ∧
    (get_relevant_files chkConfig none outputAtRoot).map (fun e => e.path) =
      ["./repo-concatenate.txt"] ∧
    fileIndexPaths chkConfig none outputAtRoot = ["repo-concatenate.txt"] ∧
    (contentSections chkConfig none outputAtRoot).map Prod.fst =
      ["repo-concatenate.txt"] ∧
    get_folder_structure chkConfig none outputAtRoot = ["repo-concatenate/"] := by
  decide

/-- C3: pruned directories (`.git` always, and matcher-matched directories)
contribute nothing to any output: deleting every pruned directory together
with its whole subtree leaves the relevant-file list, the file index, the
content sections, the computed statistics and the rendered folder structure
unchanged — so no file below a pruned directory reaches any output section
and no content below a pruned directory is ever consulted.  The sortedness
hypothesis says the fixture lists siblings in sorted order, as `os.scandir`
output behaves after `sorted`. -/
theorem C3_pruned_dirs_contribute_nothing (cfg : Config) (g : Option Matcher)
    (t : FSForest) (h : deepSortedB t = true) :
    get_relevant_files cfg g (erasePruned g "." t) =
      get_relevant_files cfg g t ∧
    fileIndexPaths cfg g (erasePruned g "." t) = fileIndexPaths cfg g t ∧
    contentSections cfg g (erasePruned g "." t) = contentSections cfg g t ∧
    calculate_statistics cfg g (erasePruned g "." t) =
      calculate_statistics cfg g t ∧
    get_folder_structure cfg g (erasePruned g "." t) =
      get_folder_structure cfg g t := by
  refine ⟨get_relevant_files_erase cfg g t, ?_, ?_, ?_,
    get_folder_structure_erase cfg g t h⟩
  · rw [fileIndexPaths_char, fileIndexPaths_char, get_relevant_files_erase]
  · rw [contentSections_char, contentSections_char, get_relevant_files_erase]
  · simp only [calculate_statistics, get_relevant_files_erase]

/-- C3 witness: on a concrete sorted fixture containing a `.git` directory
and a matcher-ignored `junk` directory, deleting both pruned subtrees
changes neither the relevant files nor the rendered tree. -/
theorem C3_pruned_witness :
    deepSortedB pruneFixture = true ∧
    get_relevant_files chkConfig pruneMatcher
        (erasePruned pruneMatcher "." pruneFixture) =
      get_relevant_files chkConfig pruneMatcher pruneFixture ∧
    get_folder_structure chkConfig pruneMatcher
        (erasePruned pruneMatcher "." pruneFixture) =
      get_folder_structure chkConfig pruneMatcher pruneFixture := by
  have h := C3_pruned_dirs_contribute_nothing chkConfig pruneMatcher
    pruneFixture (by decide)
  exact ⟨by decide, h.1, h.2.2.2.2⟩

/-- C4 counterexample: a zero-byte file passes `should_include_file` and
appears in every output section, so the claimed exclusion of empty files
does not hold of the code (which has no `includeEmpty` option at all). -/
theorem C4_empty_file_included_counterexample :
    (get_relevant_files chkConfig none emptyFileTree).map (fun e => e.path) =
      ["./empty.txt"] ∧
    fileIndexPaths chkConfig none emptyFileTree = ["empty.txt"] ∧
    contentSections chkConfig none emptyFileTree = [("empty.txt", [])] := by
  decide

/-- C4 amended: the inclusion predicate inspects only the path, never the
file's size or content; rewriting the size and lines of every file (in
particular making files empty or non-empty) leaves the selected paths of
the statistics list, the file index and the content sections unchanged. -/
theorem C4_selection_ignores_content (cfg : Config) (g : Option Matcher)
    (F : String → Nat × List String) (t : FSForest) :
    (get_relevant_files cfg g (mapFileData F t)).map (fun e => e.path) =
      (get_relevant_files cfg g t).map (fun e => e.path) ∧
    fileIndexPaths cfg g (mapFileData F t) = fileIndexPaths cfg g t ∧
    (contentSections cfg g (mapFileData F t)).map Prod.fst =
      (contentSections cfg g t).map Prod.fst := by
  refine ⟨get_relevant_files_mapFileData cfg g F t, ?_, ?_⟩
  · rw [fileIndexPaths_char, fileIndexPaths_char]
    have h := get_relevant_files_mapFileData cfg g F t
    calc (get_relevant_files cfg g (mapFileData F t)).map (fun e => relpath e.path)
        = ((get_relevant_files cfg g (mapFileData F t)).map
            (fun e => e.path)).map relpath := by rw [List.map_map]; rfl
      _ = ((get_relevant_files cfg g t).map (fun e => e.path)).map relpath := by
            rw [h]
      _ = (get_relevant_files cfg g t).map (fun e => relpath e.path) := by
            rw [List.map_map]; rfl
  · rw [contentSections_char, contentSections_char, List.map_map, List.map_map]
    have h := get_relevant_files_mapFileData cfg g F t
    calc (get_relevant_files cfg g (mapFileData F t)).map
          ((fun p => Prod.fst p) ∘ (fun e => (relpath e.path, e.lines)))
        = ((get_relevant_files cfg g (mapFileData F t)).map
            (fun e => e.path)).map relpath := by rw [List.map_map]; rfl
      _ = ((get_relevant_files cfg g t).map (fun e => e.path)).map relpath := by
            rw [h]
      _ = (get_relevant_files cfg g t).map
            ((fun p => Prod.fst p) ∘ (fun e => (relpath e.path, e.lines))) := by
            rw [List.map_map]; rfl

set_option maxRecDepth 4000 in
/-- C5 counterexample: the content section written for a 2000-line `.json`
file carries all 2000 lines of the file, with no line cap and no omission
marker — the code performs no truncation for any extension, so no
truncation threshold below the file's length can describe it. -/
theorem C5_no_truncation_counterexample :
    (contentSections chkConfig none bigJsonTree).map Prod.snd = [bigLines] ∧
    bigLines.length = 2000 := by
  constructor
  · rfl
  · simp [bigLines]

/-- C5 amended: no truncation exists; for every tree and matcher, the
content written in each file's delimited section is the complete content of
that file, whatever its extension or length. -/
theorem C5_sections_carry_full_content (cfg : Config) (g : Option Matcher)
    (t : FSForest) :
    (contentSections cfg g t).map Prod.snd =
      (get_relevant_files cfg g t).map (fun e => e.lines) := by
  rw [contentSections_char, List.map_map]
  rfl

/-- C7 counterexample: for two files of equal maximal byte size `0`, the
report keeps the sentinel `{'name': '', 'size': 0, 'lines': 0}` (a size-0
file is never strictly greater than the sentinel), so it names neither file
— in particular not the first-encountered one. -/
theorem C7_zero_tie_counterexample :
    find_largest_file zeroFiles = ⟨"", 0, 0⟩ ∧
    (find_largest_file zeroFiles).name ≠ basename "./a.txt" ∧
    (find_largest_file zeroFiles).name ≠ basename "./b.txt" := by
  decide

/-- C7 amended: whenever the maximal byte size of the list is positive,
`find_largest_file` reports exactly the first file of the list attaining
that size — a later file of equal size never replaces the candidate; when
every file has size zero the sentinel (empty name) is kept instead. -/
theorem C7_first_max_reported (files : List FileEntry)
    (h : 0 < maxSizeOf files) :
    ∃ e, files.find? (fun x => x.size == maxSizeOf files) = some e ∧
      find_largest_file files = ⟨basename e.path, e.size, e.lines.length⟩ := by
  have := find_largest_file_first_max_aux files ⟨"", 0, 0⟩ h
  simpa [find_largest_file] using this

/-- C7 witness: on a concrete list whose first two files tie at the maximal
size 3, the first one (`a.txt`) is reported. -/
theorem C7_first_max_witness :
    0 < maxSizeOf tieFiles ∧
      ∃ e, tieFiles.find? (fun x => x.size == maxSizeOf tieFiles) = some e ∧
        find_largest_file tieFiles = ⟨basename e.path, e.size, e.lines.length⟩ :=
  ⟨by decide, C7_first_max_reported tieFiles (by decide)⟩

/-- C8: the tree rendering of the fixture `root/{a.txt, sub/{b.txt}}` is
exactly `root/`, `├── a.txt`, `└── sub/`, `    └── b.txt`, in this order,
with entries at each level sorted ascending by name. -/
theorem C8_tree_rendering_exact :
    get_folder_structure rootConfig none rootFixture =
      ["root/", "├── a.txt", "└── sub/", "    └── b.txt"] := by
  decide

/-- C9: for an empty root directory the statistics report zero total files,
zero total lines and an average file size of zero; the `if relevant_files`
guard returns `0` before any division is attempted. -/
theorem C9_empty_root_stats (cfg : Config) (g : Option Matcher) :
    (calculate_statistics cfg g .nil).total_files = 0 ∧
    (calculate_statistics cfg g .nil).total_lines = 0 ∧
    (calculate_statistics cfg g .nil).average_file_size = 0 :=
  ⟨rfl, rfl, rfl⟩

/-- C6: when the `.gitignore` file cannot be read or parsed, matcher
construction yields no matcher, a single diagnostic line is printed, the
program does not exit, and the run behaves exactly as with an always-false
matcher (no exclusions) on every output: relevant files, file index,
content sections and folder structure. -/
theorem C6_gitignore_failure_degrades (msg : String) :
    (parse_gitignore (.unreadable msg)).matcher = none ∧
    (parse_gitignore (.unreadable msg)).printed =
      ["Error: Failed to parse .gitignore file: " ++ msg] ∧
    (parse_gitignore (.unreadable msg)).exited = false ∧
    ∀ cfg : Config, ∀ t : FSForest,
      get_relevant_files cfg none t =
        get_relevant_files cfg (some (fun _ => false)) t ∧
      fileIndexPaths cfg none t =
        fileIndexPaths cfg (some (fun _ => false)) t ∧
      contentSections cfg none t =
        contentSections cfg (some (fun _ => false)) t ∧
      get_folder_structure cfg none t =
        get_folder_structure cfg (some (fun _ => false)) t := by
  refine ⟨rfl, rfl, rfl, ?_⟩
  intro cfg t
  refine ⟨(get_relevant_files_gfalse cfg t).symm, ?_, ?_,
    (get_folder_structure_gfalse cfg t).symm⟩
  · rw [fileIndexPaths_char, fileIndexPaths_char, get_relevant_files_gfalse]
  · rw [contentSections_char, contentSections_char, get_relevant_files_gfalse]

/-- C10: for every file list (all files being readable in this embedding),
the total line count equals the sum over all extensions of the
per-extension line counts. -/
theorem C10_total_equals_per_type_sum (files : List FileEntry) :
    count_total_lines files =
      ((count_lines_per_file_type files).map Prod.snd).sum := by
  rw [count_total_lines_eq_sum, count_lines_per_file_type]
  have h := bump_fold_sum files []
  simpa using h.symm

end RepoConcat
